import Mathlib

/-!
Shallow embedding of the resumable in-memory event store
(`InMemoryEventStore` in `src/test_mcp_server.py`), together with proofs of
the specification claims about it.

Modelling conventions:
* `StreamId`, `EventId` and the message payload (`JSONRPCMessage`) are opaque
  to the store in the source; all three are modelled as `Nat`.
* `str(uuid4())` is modelled as a draw from a fresh-id supply: the store
  carries a counter `nextId` and each `store_event` call returns the current
  counter value, which is fresh by construction.  This captures the source's
  reliance on uuid4 draws never colliding.
* A Python `dict` is modelled as an association list with in-place update
  (`dinsert`, keeping the position of an existing key), deletion (`derase`,
  mirroring `pop(k, None)`) and lookup (`dlookup`); `deque(maxlen=N)` is a
  `List` whose append drops the oldest element when full (`dequeAppend`).
* `replay_events_after` returns the pair (result, list of `send_callback`
  invocations in order).  The source performs no state mutation during
  replay, so the model is a pure function of the store.
* The `IndexError` the source raises on `self.streams[stream_id][0]` when the
  deque is empty is modelled by `Option`: `store_event` returns `none`
  exactly where the source raises.
-/


/-- `EventEntry` dataclass: `{event_id, stream_id, message}`. -/
structure EventEntry where
  event_id : Nat
  stream_id : Nat
  message : Nat
deriving DecidableEq

/-- `EventMessage(message, event_id)`: the argument passed to `send_callback`. -/
structure EventMessage where
  message : Nat
  event_id : Nat
deriving DecidableEq

/-- Python dict lookup `d.get(k)` / `d[k]` on an association list. -/
def dlookup {β : Type} (k : Nat) : List (Nat × β) → Option β
  | [] => none
  | p :: rest => if p.1 = k then some p.2 else dlookup k rest

/-- Python dict assignment `d[k] = v`: replaces the value in place if the key
is present (keeping its position), otherwise appends the new pair. -/
def dinsert {β : Type} (k : Nat) (v : β) : List (Nat × β) → List (Nat × β)
  | [] => [(k, v)]
  | p :: rest => if p.1 = k then (k, v) :: rest else p :: dinsert k v rest

/-- Python dict `d.pop(k, None)`: removes the key if present, no error if absent. -/
def derase {β : Type} (k : Nat) : List (Nat × β) → List (Nat × β)
  | [] => []
  | p :: rest => if p.1 = k then derase k rest else p :: derase k rest

/-- The store state: per-stream deques plus the global id index, and the
fresh-id counter modelling uuid4. -/
structure InMemoryEventStore where
  max_events_per_stream : Nat
  streams : List (Nat × List EventEntry)
  event_index : List (Nat × EventEntry)
  nextId : Nat
deriving DecidableEq

/-- `InMemoryEventStore.__init__` (source default capacity is 100). -/
def initStore (maxEvents : Nat) : InMemoryEventStore :=
  { max_events_per_stream := maxEvents, streams := [], event_index := [], nextId := 0 }

/-- `deque(maxlen=N).append x`: drops the oldest element when already full. -/
def dequeAppend (maxlen : Nat) (log : List EventEntry) (x : EventEntry) : List EventEntry :=
  if log.length < maxlen then log ++ [x] else (log ++ [x]).drop (log.length + 1 - maxlen)

/-- `InMemoryEventStore.store_event`.  Returns `none` where the source raises
(`self.streams[stream_id][0]` on an empty deque, possible only when the log
length equals `max_events_per_stream` with an empty log, i.e. capacity 0). -/
def store_event (stream_id : Nat) (message : Nat)
    (st : InMemoryEventStore) : Option (InMemoryEventStore × Nat) :=
  let event_id := st.nextId
  let event_entry : EventEntry :=
    { event_id := event_id, stream_id := stream_id, message := message }
  let streams0 := match dlookup stream_id st.streams with
    | none => dinsert stream_id [] st.streams
    | some _ => st.streams
  let log := (dlookup stream_id streams0).getD []
  if log.length = st.max_events_per_stream then
    match log with
    | [] => none
    | oldest :: _ =>
      some ({ st with
                streams :=
                  dinsert stream_id (dequeAppend st.max_events_per_stream log event_entry) streams0,
                event_index :=
                  dinsert event_id event_entry (derase oldest.event_id st.event_index),
                nextId := st.nextId + 1 }, event_id)
  else
    some ({ st with
              streams :=
                dinsert stream_id (dequeAppend st.max_events_per_stream log event_entry) streams0,
              event_index := dinsert event_id event_entry st.event_index,
              nextId := st.nextId + 1 }, event_id)

/-- `EventMessage(event.message, event.event_id)` as built inside the replay loop. -/
def toEM (e : EventEntry) : EventMessage :=
  { message := e.message, event_id := e.event_id }

/-- The `for event in stream_events` loop of `replay_events_after`, with the
`found_last` flag threaded explicitly; collects the callback invocations. -/
def replayLoop (last_event_id : Nat) : List EventEntry → Bool → List EventMessage
  | [], _ => []
  | event :: rest, found_last =>
    if found_last then toEM event :: replayLoop last_event_id rest true
    else if event.event_id = last_event_id then replayLoop last_event_id rest true
    else replayLoop last_event_id rest false

/-- `InMemoryEventStore.replay_events_after`: first component is the returned
value (`None` when the id is not in the index, otherwise the stream id);
second component is the ordered list of `send_callback` invocations. -/
def replay_events_after (last_event_id : Nat) (st : InMemoryEventStore) :
    Option Nat × List EventMessage :=
  match dlookup last_event_id st.event_index with
  | none => (none, [])
  | some last_event =>
    (some last_event.stream_id,
     replayLoop last_event_id ((dlookup last_event.stream_id st.streams).getD []) false)

/-- Run a sequence of `store_event` calls; `none` if any call raises. -/
def runTrace : List (Nat × Nat) → InMemoryEventStore →
    Option InMemoryEventStore
  | [], st => some st
  | (sid, m) :: rest, st =>
    match store_event sid m st with
    | none => none
    | some (st', _) => runTrace rest st'

/-- Run a sequence of `store_event` calls, collecting the returned event ids. -/
def runTraceIds : List (Nat × Nat) → InMemoryEventStore →
    Option (InMemoryEventStore × List Nat)
  | [], st => some (st, [])
  | (sid, m) :: rest, st =>
    match store_event sid m st with
    | none => none
    | some (st', id) =>
      match runTraceIds rest st' with
      | none => none
      | some (st'', ids) => some (st'', id :: ids)

/-- The entries created by storing `ms` on stream `s` when the fresh-id
counter starts at `b`. -/
def entriesFrom (s : Nat) (b : Nat) : List Nat → List EventEntry
  | [] => []
  | m :: ms => { event_id := b, stream_id := s, message := m } :: entriesFrom s (b + 1) ms

/-- The global index holding exactly the entries of `L`, in log order. -/
def indexOfLog (L : List EventEntry) : List (Nat × EventEntry) :=
  L.map (fun e => (e.event_id, e))

/-- Length of a stream's log (0 when the stream does not exist yet). -/
def logLenOf (st : InMemoryEventStore) (sid : Nat) : Nat :=
  ((dlookup sid st.streams).getD []).length

/-- The index keys dropped by one step: present in the index of `st` and
absent from the index of `st'`.  The only removal the source ever performs is
`event_index.pop(oldest_event.event_id, None)` in the eviction branch, so on
reachable states this observer is exactly the evicted oldest id (proved in
`evictedAt_store_event`). -/
def evictedAt (st st' : InMemoryEventStore) : List Nat :=
  (st.event_index.map Prod.fst).filter (fun k => dlookup k st'.event_index = none)

/-- Run a sequence of `store_event` calls, collecting the index keys each
step dropped (the evicted ids); `none` if any call raises. -/
def runTraceEv : List (Nat × Nat) → InMemoryEventStore →
    Option (InMemoryEventStore × List Nat)
  | [], st => some (st, [])
  | (sid, m) :: rest, st =>
    match store_event sid m st with
    | none => none
    | some (st1, _) =>
      match runTraceEv rest st1 with
      | none => none
      | some (st2, evs) => some (st2, evictedAt st st1 ++ evs)

/-- The store state reached by storing only on stream `s`: one log holding the
entries for messages `tm` with consecutive ids starting at `b`, an index
holding exactly those entries, and the counter past the last id. -/
def canonState (s N b : Nat) (tm : List Nat) : InMemoryEventStore :=
  { max_events_per_stream := N,
    streams := [(s, entriesFrom s b tm)],
    event_index := indexOfLog (entriesFrom s b tm),
    nextId := b + tm.length }

/-- Concrete two-stream state: stores `(1,10)`, `(2,20)`, `(1,11)` with capacity 2. -/
def exTwoStreams : InMemoryEventStore :=
  { max_events_per_stream := 2,
    streams := [(1, [⟨0, 1, 10⟩, ⟨2, 1, 11⟩]), (2, [⟨1, 2, 20⟩])],
    event_index := [(0, ⟨0, 1, 10⟩), (1, ⟨1, 2, 20⟩), (2, ⟨2, 1, 11⟩)],
    nextId := 3 }

/-- The store's invariant, maintained by `store_event` from the initial state:
logs are bounded by the capacity, entries sit in the log named by their own
`stream_id`, ids are below the fresh-id counter, the index maps an id to an
entry with that id that is present in its stream's log, and no id occurs in
two places. -/
structure StoreInv (st : InMemoryEventStore) : Prop where
  logLen : ∀ q ∈ st.streams, (Prod.snd q).length ≤ st.max_events_per_stream
  homog : ∀ q ∈ st.streams, ∀ e ∈ Prod.snd q, EventEntry.stream_id e = Prod.fst q
  logIdsLt : ∀ q ∈ st.streams, ∀ e ∈ Prod.snd q, EventEntry.event_id e < st.nextId
  idxKeyLt : ∀ p ∈ st.event_index, Prod.fst p < st.nextId
  idxEntryId : ∀ p ∈ st.event_index, EventEntry.event_id (Prod.snd p) = Prod.fst p
  idxInLog : ∀ p ∈ st.event_index,
    ∃ L, dlookup (EventEntry.stream_id (Prod.snd p)) st.streams = some L ∧ Prod.snd p ∈ L
  crossDisjoint : ∀ q ∈ st.streams, ∀ r ∈ st.streams, ∀ e ∈ Prod.snd q, ∀ f ∈ Prod.snd r,
    EventEntry.event_id e = EventEntry.event_id f → Prod.fst q = Prod.fst r ∧ e = f
  idxKeysNodup : (st.event_index.map Prod.fst).Nodup
  streamsKeysNodup : (st.streams.map Prod.fst).Nodup
  logNodup : ∀ q ∈ st.streams, ((Prod.snd q).map EventEntry.event_id).Nodup
  logInIdx : ∀ q ∈ st.streams, ∀ e ∈ Prod.snd q,
    dlookup (EventEntry.event_id e) st.event_index = some e

/-! ### Association-list (Python dict) lemmas -/

theorem dlookup_dinsert_self {β : Type} (k : Nat) (v : β) (l : List (Nat × β)) :
    dlookup k (dinsert k v l) = some v := by
  induction l with
  | nil => simp [dinsert, dlookup]
  | cons p rest ih =>
    by_cases h : p.1 = k
    · simp [dinsert, h, dlookup]
    · simp [dinsert, h, dlookup, ih]

theorem dlookup_dinsert_ne {β : Type} (k k' : Nat) (v : β) (l : List (Nat × β))
    (h : k ≠ k') : dlookup k (dinsert k' v l) = dlookup k l := by
  have hk : ¬(k' = k) := fun hh => h hh.symm
  induction l with
  | nil => simp [dinsert, dlookup, hk]
  | cons p rest ih =>
    by_cases hp : p.1 = k'
    · have hpk : ¬(p.1 = k) := by rw [hp]; exact hk
      rw [dinsert, if_pos hp, dlookup, if_neg hk, dlookup, if_neg hpk]
    · rw [dinsert, if_neg hp, dlookup, dlookup]
      by_cases hpk : p.1 = k
      · rw [if_pos hpk, if_pos hpk]
      · rw [if_neg hpk, if_neg hpk, ih]

theorem mem_dinsert {β : Type} (k : Nat) (v : β) (l : List (Nat × β)) (p : Nat × β)
    (h : p ∈ dinsert k v l) : p = (k, v) ∨ p ∈ l := by
  induction l with
  | nil => simpa [dinsert] using h
  | cons q rest ih =>
    by_cases hq : q.1 = k
    · rw [dinsert, if_pos hq] at h
      rcases List.mem_cons.mp h with h | h
      · exact Or.inl h
      · exact Or.inr (List.mem_cons_of_mem _ h)
    · rw [dinsert, if_neg hq] at h
      rcases List.mem_cons.mp h with h | h
      · exact Or.inr (h ▸ List.mem_cons_self _ _)
      · rcases ih h with h | h
        · exact Or.inl h
        · exact Or.inr (List.mem_cons_of_mem _ h)

theorem dinsert_fresh {β : Type} (k : Nat) (v : β) (l : List (Nat × β))
    (h : ∀ p ∈ l, p.1 ≠ k) : dinsert k v l = l ++ [(k, v)] := by
  induction l with
  | nil => simp [dinsert]
  | cons q rest ih =>
    have hq : q.1 ≠ k := h q (List.mem_cons_self _ _)
    rw [dinsert, if_neg hq, ih (fun p hp => h p (List.mem_cons_of_mem _ hp))]
    simp

theorem mem_derase {β : Type} (k : Nat) (l : List (Nat × β)) (p : Nat × β) :
    p ∈ derase k l ↔ p ∈ l ∧ p.1 ≠ k := by
  induction l with
  | nil => simp [derase]
  | cons q rest ih =>
    by_cases hq : q.1 = k
    · rw [derase, if_pos hq, ih]
      constructor
      · rintro ⟨h1, h2⟩; exact ⟨List.mem_cons_of_mem _ h1, h2⟩
      · rintro ⟨h1, h2⟩
        rcases List.mem_cons.mp h1 with h | h
        · exact absurd (h ▸ hq) h2
        · exact ⟨h, h2⟩
    · rw [derase, if_neg hq]
      constructor
      · intro h
        rcases List.mem_cons.mp h with h | h
        · exact ⟨h ▸ List.mem_cons_self _ _, h ▸ hq⟩
        · rcases ih.mp h with ⟨h1, h2⟩
          exact ⟨List.mem_cons_of_mem _ h1, h2⟩
      · rintro ⟨h1, h2⟩
        rcases List.mem_cons.mp h1 with h | h
        · exact h ▸ List.mem_cons_self _ _
        · exact List.mem_cons_of_mem _ (ih.mpr ⟨h, h2⟩)

theorem dlookup_mem {β : Type} (k : Nat) (l : List (Nat × β)) (v : β)
    (h : dlookup k l = some v) : (k, v) ∈ l := by
  induction l with
  | nil => simp [dlookup] at h
  | cons p rest ih =>
    by_cases hp : p.1 = k
    · rw [dlookup, if_pos hp] at h
      have hv : p.2 = v := Option.some.inj h
      have hpv : (k, v) = p := by
        obtain ⟨a, b⟩ := p
        have ha : a = k := hp
        have hb : b = v := hv
        rw [ha, hb]
      rw [hpv]
      exact List.mem_cons_self _ _
    · rw [dlookup, if_neg hp] at h
      exact List.mem_cons_of_mem _ (ih h)

theorem dlookup_eq_none {β : Type} (k : Nat) (l : List (Nat × β))
    (h : ∀ p ∈ l, p.1 ≠ k) : dlookup k l = none := by
  induction l with
  | nil => rfl
  | cons p rest ih =>
    rw [dlookup, if_neg (h p (List.mem_cons_self _ _))]
    exact ih (fun q hq => h q (List.mem_cons_of_mem _ hq))

theorem dlookup_append_left {β : Type} (k : Nat) (l l' : List (Nat × β)) (v : β)
    (h : dlookup k l = some v) : dlookup k (l ++ l') = some v := by
  induction l with
  | nil => simp [dlookup] at h
  | cons p rest ih =>
    by_cases hp : p.1 = k
    · rw [dlookup, if_pos hp] at h
      rw [List.cons_append, dlookup, if_pos hp, h]
    · rw [dlookup, if_neg hp] at h
      rw [List.cons_append, dlookup, if_neg hp]
      exact ih h

theorem dlookup_append_right {β : Type} (k : Nat) (l l' : List (Nat × β))
    (h : dlookup k l = none) : dlookup k (l ++ l') = dlookup k l' := by
  induction l with
  | nil => simp
  | cons p rest ih =>
    by_cases hp : p.1 = k
    · rw [dlookup, if_pos hp] at h; simp at h
    · rw [dlookup, if_neg hp] at h
      rw [List.cons_append, dlookup, if_neg hp]
      exact ih h

theorem derase_of_absent {β : Type} (k : Nat) (l : List (Nat × β))
    (h : ∀ p ∈ l, p.1 ≠ k) : derase k l = l := by
  induction l with
  | nil => rfl
  | cons p rest ih =>
    rw [derase, if_neg (h p (List.mem_cons_self _ _))]
    rw [ih (fun q hq => h q (List.mem_cons_of_mem _ hq))]

theorem dlookup_derase_ne {β : Type} (k k' : Nat) (l : List (Nat × β))
    (h : ¬k = k') : dlookup k (derase k' l) = dlookup k l := by
  induction l with
  | nil => rfl
  | cons p rest ih =>
    by_cases hp : p.1 = k'
    · have hpk : ¬p.1 = k := by
        rw [hp]
        intro hc
        exact h hc.symm
      rw [derase, if_pos hp, dlookup, if_neg hpk, ih]
    · rw [derase, if_neg hp, dlookup, dlookup]
      by_cases hpk : p.1 = k
      · rw [if_pos hpk, if_pos hpk]
      · rw [if_neg hpk, if_neg hpk, ih]

theorem dlookup_derase_self {β : Type} (k : Nat) (l : List (Nat × β)) :
    dlookup k (derase k l) = none := by
  apply dlookup_eq_none
  intro p hp
  exact ((mem_derase _ _ _).mp hp).2

theorem dlookup_none_forall {β : Type} (k : Nat) (l : List (Nat × β))
    (h : dlookup k l = none) : ∀ p ∈ l, p.1 ≠ k := by
  induction l with
  | nil => intro p hp; simp at hp
  | cons q rest ih =>
    intro p hp
    by_cases hq : q.1 = k
    · rw [dlookup, if_pos hq] at h
      simp at h
    · rw [dlookup, if_neg hq] at h
      rcases List.mem_cons.mp hp with hp | hp
      · rw [hp]
        exact hq
      · exact ih h p hp

theorem exists_dlookup_of_key_mem {β : Type} (k : Nat) (l : List (Nat × β))
    (h : k ∈ l.map Prod.fst) : ∃ v, dlookup k l = some v := by
  cases hl : dlookup k l with
  | some v => exact ⟨v, rfl⟩
  | none =>
    exfalso
    rcases List.mem_map.mp h with ⟨p, hp, hpk⟩
    exact absurd hpk (dlookup_none_forall k l hl p hp)

theorem keys_mem_dinsert {β : Type} (k : Nat) (v : β) (l : List (Nat × β)) (a : Nat)
    (h : a ∈ (dinsert k v l).map Prod.fst) : a = k ∨ a ∈ l.map Prod.fst := by
  rcases List.mem_map.mp h with ⟨p, hp, hpa⟩
  rcases mem_dinsert _ _ _ _ hp with hp | hp
  · left
    rw [← hpa, hp]
  · right
    rw [← hpa]
    exact List.mem_map.mpr ⟨p, hp, rfl⟩

theorem keys_nodup_dinsert {β : Type} (k : Nat) (v : β) (l : List (Nat × β))
    (h : (l.map Prod.fst).Nodup) : ((dinsert k v l).map Prod.fst).Nodup := by
  induction l with
  | nil => simp [dinsert]
  | cons q rest ih =>
    rw [List.map_cons, List.nodup_cons] at h
    by_cases hq : q.1 = k
    · rw [dinsert, if_pos hq, List.map_cons, List.nodup_cons]
      exact ⟨by rw [← hq]; exact h.1, h.2⟩
    · rw [dinsert, if_neg hq, List.map_cons, List.nodup_cons]
      refine ⟨?_, ih h.2⟩
      intro hc
      rcases keys_mem_dinsert k v rest q.1 hc with hc | hc
      · exact hq hc
      · exact h.1 hc

theorem mem_dinsert_of_keys_nodup {β : Type} (k : Nat) (v : β) (l : List (Nat × β))
    (p : Nat × β) (hnd : (l.map Prod.fst).Nodup) (h : p ∈ dinsert k v l) :
    p = (k, v) ∨ (p ∈ l ∧ ¬p.1 = k) := by
  induction l with
  | nil =>
    rw [dinsert] at h
    exact Or.inl (List.mem_singleton.mp h)
  | cons q rest ih =>
    rw [List.map_cons, List.nodup_cons] at hnd
    by_cases hq : q.1 = k
    · rw [dinsert, if_pos hq] at h
      rcases List.mem_cons.mp h with h | h
      · exact Or.inl h
      · refine Or.inr ⟨List.mem_cons_of_mem _ h, ?_⟩
        intro hc
        apply hnd.1
        rw [hq, ← hc]
        exact List.mem_map.mpr ⟨p, h, rfl⟩
    · rw [dinsert, if_neg hq] at h
      rcases List.mem_cons.mp h with h | h
      · exact Or.inr ⟨h ▸ List.mem_cons_self _ _, h ▸ hq⟩
      · rcases ih hnd.2 h with h | h
        · exact Or.inl h
        · exact Or.inr ⟨List.mem_cons_of_mem _ h.1, h.2⟩

theorem filter_eq_singleton_of_nodup (a : Nat) (l : List Nat) (hnd : l.Nodup)
    (ha : a ∈ l) (P : Nat → Bool) (hP : ∀ b ∈ l, P b = true ↔ b = a) :
    l.filter P = [a] := by
  induction l with
  | nil => simp at ha
  | cons b rest ih =>
    rw [List.nodup_cons] at hnd
    rcases List.mem_cons.mp ha with hab | hab
    · rw [List.filter_cons, if_pos ((hP b (List.mem_cons_self _ _)).mpr hab.symm)]
      have hrest : rest.filter P = [] := by
        rw [List.filter_eq_nil_iff]
        intro c hc hPc
        have hca : c = a := (hP c (List.mem_cons_of_mem _ hc)).mp hPc
        apply hnd.1
        rw [← hab, ← hca]
        exact hc
      rw [hrest, ← hab]
    · rw [List.filter_cons]
      have hPb : ¬P b = true := by
        intro hPb
        have hba : b = a := (hP b (List.mem_cons_self _ _)).mp hPb
        apply hnd.1
        rw [hba]
        exact hab
      rw [if_neg hPb]
      exact ih hnd.2 hab (fun c hc => hP c (List.mem_cons_of_mem _ hc))

/-! ### Lemmas about `entriesFrom`, `indexOfLog`, `dequeAppend`, `replayLoop` -/

theorem entriesFrom_length (s : Nat) (b : Nat) (ms : List Nat) :
    (entriesFrom s b ms).length = ms.length := by
  induction ms generalizing b with
  | nil => rfl
  | cons m rest ih => simp [entriesFrom, ih]

theorem entriesFrom_append (s : Nat) (b : Nat) (ms ms' : List Nat) :
    entriesFrom s b (ms ++ ms') = entriesFrom s b ms ++ entriesFrom s (b + ms.length) ms' := by
  induction ms generalizing b with
  | nil => simp [entriesFrom]
  | cons m rest ih =>
    rw [List.cons_append, entriesFrom, entriesFrom, ih (b + 1), List.cons_append]
    have : b + 1 + rest.length = b + (rest.length + 1) := by omega
    rw [this]
    rfl

theorem entriesFrom_drop (s : Nat) (b d : Nat) (ms : List Nat) :
    (entriesFrom s b ms).drop d = entriesFrom s (b + d) (ms.drop d) := by
  induction ms generalizing b d with
  | nil => simp [entriesFrom]
  | cons m rest ih =>
    cases d with
    | zero => simp [entriesFrom]
    | succ d' =>
      rw [entriesFrom, List.drop_succ_cons, List.drop_succ_cons, ih (b + 1) d']
      have : b + 1 + d' = b + (d' + 1) := by omega
      rw [this]

theorem mem_entriesFrom (s : Nat) (b : Nat) (ms : List Nat)
    (e : EventEntry) (h : e ∈ entriesFrom s b ms) :
    b ≤ e.event_id ∧ e.event_id < b + ms.length ∧ e.stream_id = s := by
  induction ms generalizing b with
  | nil => simp [entriesFrom] at h
  | cons m rest ih =>
    rw [entriesFrom] at h
    rcases List.mem_cons.mp h with h | h
    · subst h
      simp
    · have := ih (b + 1) h
      refine ⟨by omega, by simpa [Nat.add_assoc, Nat.add_comm 1 rest.length] using this.2.1, this.2.2⟩

theorem dlookup_indexOfLog_at (s : Nat) (b j : Nat) (ms : List Nat)
    (h : j < ms.length) :
    dlookup (b + j) (indexOfLog (entriesFrom s b ms)) =
      some { event_id := b + j, stream_id := s, message := ms.getD j 0 } := by
  induction ms generalizing b j with
  | nil => simp at h
  | cons m rest ih =>
    cases j with
    | zero =>
      simp [entriesFrom, indexOfLog, dlookup]
    | succ j' =>
      rw [entriesFrom, indexOfLog, List.map_cons, dlookup]
      have hne : ¬({ event_id := b, stream_id := s, message := m } : EventEntry).event_id = b + (j' + 1) := by
        show ¬b = b + (j' + 1)
        omega
      rw [if_neg hne]
      have := ih (b + 1) j' (by simpa using Nat.lt_of_succ_lt_succ h)
      rw [indexOfLog] at this
      have harith : b + 1 + j' = b + (j' + 1) := by omega
      rw [harith] at this
      rw [this]
      rfl

theorem dlookup_indexOfLog_lt (s : Nat) (b i : Nat) (ms : List Nat)
    (h : i < b) : dlookup i (indexOfLog (entriesFrom s b ms)) = none := by
  apply dlookup_eq_none
  intro p hp
  rw [indexOfLog] at hp
  rcases List.mem_map.mp hp with ⟨e, he, hpe⟩
  obtain ⟨h1, h2, h3⟩ := mem_entriesFrom s b ms e he
  rw [← hpe]
  show ¬e.event_id = i
  omega

theorem dlookup_indexOfLog_ge (s : Nat) (b i : Nat) (ms : List Nat)
    (h : b + ms.length ≤ i) : dlookup i (indexOfLog (entriesFrom s b ms)) = none := by
  apply dlookup_eq_none
  intro p hp
  rw [indexOfLog] at hp
  rcases List.mem_map.mp hp with ⟨e, he, hpe⟩
  obtain ⟨h1, h2, h3⟩ := mem_entriesFrom s b ms e he
  rw [← hpe]
  show ¬e.event_id = i
  omega

theorem replayLoop_found (last : Nat) (l : List EventEntry) :
    replayLoop last l true = l.map toEM := by
  induction l with
  | nil => rfl
  | cons e rest ih => simp [replayLoop, ih]

theorem mem_replayLoop (last : Nat) (l : List EventEntry) (b : Bool)
    (em : EventMessage) (h : em ∈ replayLoop last l b) : ∃ e ∈ l, em = toEM e := by
  induction l generalizing b with
  | nil => simp [replayLoop] at h
  | cons e rest ih =>
    rw [replayLoop] at h
    by_cases hb : b = true
    · subst hb
      rw [if_pos rfl] at h
      rcases List.mem_cons.mp h with h | h
      · exact ⟨e, List.mem_cons_self _ _, h⟩
      · rcases ih true h with ⟨e', he', hem⟩
        exact ⟨e', List.mem_cons_of_mem _ he', hem⟩
    · have hb' : b = false := by cases b; rfl; exact absurd rfl hb
      subst hb'
      rw [if_neg (by simp)] at h
      by_cases heq : e.event_id = last
      · rw [if_pos heq] at h
        rcases ih true h with ⟨e', he', hem⟩
        exact ⟨e', List.mem_cons_of_mem _ he', hem⟩
      · rw [if_neg heq] at h
        rcases ih false h with ⟨e', he', hem⟩
        exact ⟨e', List.mem_cons_of_mem _ he', hem⟩

theorem replayLoop_entriesFrom (s : Nat) (ms : List Nat) (b j : Nat)
    (h : j < ms.length) :
    replayLoop (b + j) (entriesFrom s b ms) false =
      (entriesFrom s (b + (j + 1)) (ms.drop (j + 1))).map toEM := by
  induction ms generalizing b j with
  | nil => simp at h
  | cons m rest ih =>
    cases j with
    | zero =>
      rw [entriesFrom, replayLoop, if_neg (by simp), if_pos (by simp), replayLoop_found]
      simp
    | succ j' =>
      rw [entriesFrom, replayLoop, if_neg (by simp)]
      have hne : ¬({ event_id := b, stream_id := s, message := m } : EventEntry).event_id = b + (j' + 1) := by
        show ¬b = b + (j' + 1)
        omega
      rw [if_neg hne]
      have := ih (b + 1) j' (by simpa using Nat.lt_of_succ_lt_succ h)
      have harith : b + 1 + j' = b + (j' + 1) := by omega
      rw [harith] at this
      rw [this]
      have harith2 : b + 1 + (j' + 1) = b + (j' + 1 + 1) := by omega
      rw [harith2]
      rfl

/-! ### The canonical single-stream state and `store_event` on it -/

theorem indexOfLog_key_lt (s b : Nat) (tm : List Nat) (p : Nat × EventEntry)
    (hp : p ∈ indexOfLog (entriesFrom s b tm)) : p.1 < b + tm.length := by
  rw [indexOfLog] at hp
  rcases List.mem_map.mp hp with ⟨e, he, hpe⟩
  obtain ⟨h1, h2, h3⟩ := mem_entriesFrom s b tm e he
  rw [← hpe]
  show e.event_id < b + tm.length
  omega

theorem store_event_canon_notfull (s N b m : Nat) (tm : List Nat)
    (hlt : tm.length < N) :
    store_event s m (canonState s N b tm) =
      some (canonState s N b (tm ++ [m]), b + tm.length) := by
  have hL : (entriesFrom s b tm).length = tm.length := entriesFrom_length s b tm
  have hlook : dlookup s [(s, entriesFrom s b tm)] = some (entriesFrom s b tm) := by
    rw [dlookup, if_pos rfl]
  have hfresh : ∀ p ∈ indexOfLog (entriesFrom s b tm), p.1 ≠ b + tm.length := by
    intro p hp
    have := indexOfLog_key_lt s b tm p hp
    omega
  rw [store_event]
  simp only [canonState, hlook, Option.getD_some]
  rw [if_neg (by rw [hL]; omega)]
  rw [dequeAppend, if_pos (by rw [hL]; omega)]
  rw [dinsert, if_pos rfl]
  rw [dinsert_fresh _ _ _ hfresh]
  have hentry : entriesFrom s b (tm ++ [m]) =
      entriesFrom s b tm ++ [{ event_id := b + tm.length, stream_id := s, message := m }] := by
    rw [entriesFrom_append]
    rfl
  have hidx : indexOfLog (entriesFrom s b (tm ++ [m])) =
      indexOfLog (entriesFrom s b tm) ++
        [(b + tm.length, { event_id := b + tm.length, stream_id := s, message := m })] := by
    rw [hentry, indexOfLog, indexOfLog, List.map_append]
    rfl
  rw [hidx, hentry]
  have harith : b + (tm ++ [m]).length = b + tm.length + 1 := by
    simp [List.length_append]
    omega
  rw [harith]

theorem store_event_canon_full (s N b m : Nat) (tm : List Nat)
    (hfull : tm.length = N) (hN : 1 ≤ N) :
    store_event s m (canonState s N b tm) =
      some (canonState s N (b + 1) (tm.drop 1 ++ [m]), b + tm.length) := by
  cases tm with
  | nil =>
    rw [List.length_nil] at hfull
    omega
  | cons t0 tm' =>
    have hL : (entriesFrom s b (t0 :: tm')).length = tm'.length + 1 := by
      rw [entriesFrom_length]
      rfl
    have hlook : dlookup s [(s, entriesFrom s b (t0 :: tm'))] =
        some (entriesFrom s b (t0 :: tm')) := by
      rw [dlookup, if_pos rfl]
    rw [store_event]
    simp only [canonState, hlook, Option.getD_some]
    rw [if_pos (by rw [hL]; rw [← hfull]; rfl)]
    rw [entriesFrom]
    have hfull' : tm'.length + 1 = N := by simpa using hfull
    have hlen : ({ event_id := b, stream_id := s, message := t0 } ::
        entriesFrom s (b + 1) tm' : List EventEntry).length = N := by
      simp [entriesFrom_length]
      omega
    have habsent : ∀ p ∈ indexOfLog (entriesFrom s (b + 1) tm'), p.1 ≠ b := by
      intro p hp
      rcases List.mem_map.mp hp with ⟨e, he, hpe⟩
      obtain ⟨hh1, hh2, hh3⟩ := mem_entriesFrom _ _ _ e he
      rw [← hpe]
      show ¬e.event_id = b
      omega
    have hfresh : ∀ p ∈ indexOfLog (entriesFrom s (b + 1) tm'),
        p.1 ≠ b + (t0 :: tm').length := by
      intro p hp
      have := indexOfLog_key_lt s (b + 1) tm' p hp
      show p.1 ≠ b + (tm'.length + 1)
      omega
    simp only [indexOfLog] at habsent hfresh
    rw [dinsert, if_pos rfl]
    rw [dequeAppend, if_neg (by rw [hlen]; omega), hlen,
      show N + 1 - N = 1 from by omega]
    simp only [indexOfLog, List.map_cons]
    rw [derase, if_pos rfl]
    rw [derase_of_absent _ _ habsent]
    rw [dinsert_fresh _ _ _ hfresh]
    simp only [List.cons_append, List.drop_succ_cons, List.drop_zero]
    rw [entriesFrom_append]
    have harith : b + (t0 :: tm').length = b + 1 + tm'.length := by
      simp [List.length_cons]
      omega
    rw [harith]
    simp only [entriesFrom, List.map_append, List.map_cons, List.map_nil,
      List.length_append, List.length_cons, List.length_nil]
    have harith2 : b + 1 + tm'.length + 1 = b + 1 + (tm'.length + 1) := by omega
    rw [harith2]

theorem runTrace_cons_some (sid m : Nat) (st st' : InMemoryEventStore) (i : Nat)
    (rest : List (Nat × Nat)) (h : store_event sid m st = some (st', i)) :
    runTrace ((sid, m) :: rest) st = runTrace rest st' := by
  rw [runTrace, h]

/-- Running a single-stream trace from a canonical state lands in the
canonical state for the concatenated message list: the log keeps the last
`N` entries and ids stay consecutive. -/
theorem runTrace_canon (s N : Nat) (msgs : List Nat) (hN : 1 ≤ N) :
    ∀ (b : Nat) (tm : List Nat), tm.length ≤ N →
      runTrace (msgs.map (fun m => (s, m))) (canonState s N b tm) =
        some (canonState s N (b + ((tm ++ msgs).length - N))
          ((tm ++ msgs).drop ((tm ++ msgs).length - N))) := by
  induction msgs with
  | nil =>
    intro b tm hlen
    have hz : (tm ++ ([] : List Nat)).length - N = 0 := by
      simp
      omega
    rw [List.map_nil, runTrace, hz]
    simp
  | cons m rest ih =>
    intro b tm hlen
    rw [List.map_cons]
    by_cases hfull : tm.length = N
    · rw [runTrace_cons_some s m _ _ (b + tm.length) _
        (store_event_canon_full s N b m tm hfull hN)]
      have hlen' : (tm.drop 1 ++ [m]).length ≤ N := by
        simp
        omega
      rw [ih (b + 1) (tm.drop 1 ++ [m]) hlen']
      cases tm with
      | nil =>
        rw [List.length_nil] at hfull
        omega
      | cons t0 tm' =>
        have hfull' : tm'.length + 1 = N := by simpa using hfull
        have hd1 : ((t0 :: tm').drop 1 ++ [m] ++ rest).length - N = rest.length := by
          simp
          omega
        have hd2 : ((t0 :: tm') ++ m :: rest).length - N = rest.length + 1 := by
          simp
          omega
        rw [hd1, hd2]
        have hbase : b + 1 + rest.length = b + (rest.length + 1) := by omega
        have hlist : ((t0 :: tm').drop 1 ++ [m] ++ rest).drop rest.length =
            ((t0 :: tm') ++ m :: rest).drop (rest.length + 1) := by
          have hstep : ((t0 :: tm') ++ m :: rest).drop (rest.length + 1) =
              (((t0 :: tm') ++ m :: rest).drop 1).drop rest.length := by
            rw [List.drop_drop]
            congr 1
            omega
          rw [hstep]
          congr 1
          simp
        rw [hbase, hlist]
    · have hlt : tm.length < N := by omega
      rw [runTrace_cons_some s m _ _ (b + tm.length) _
        (store_event_canon_notfull s N b m tm hlt)]
      have hlen' : (tm ++ [m]).length ≤ N := by
        simp
        omega
      rw [ih b (tm ++ [m]) hlen']
      have hlist : (tm ++ [m]) ++ rest = tm ++ m :: rest := by simp
      rw [hlist]

theorem store_event_init (s N m : Nat) (hN : 1 ≤ N) :
    store_event s m (initStore N) = some (canonState s N 0 [m], 0) := by
  rw [store_event]
  simp only [initStore, dlookup, dinsert, Option.getD_some, ite_true, List.length_nil]
  rw [if_neg (show ¬(0 = N) from by omega)]
  rw [dequeAppend, if_pos (show ([] : List EventEntry).length < N from by
    simp only [List.length_nil]; omega)]
  simp only [List.nil_append]
  simp [canonState, entriesFrom, indexOfLog]

/-- The state after any nonempty single-stream trace from the initial store:
log and index hold exactly the last `min |msgs| N` entries, with consecutive
ids `0, 1, ...` assigned in call order. -/
theorem runTrace_init_single (s N m0 : Nat) (msgs : List Nat) (hN : 1 ≤ N) :
    runTrace ((m0 :: msgs).map (fun m => (s, m))) (initStore N) =
      some (canonState s N ((m0 :: msgs).length - N)
        ((m0 :: msgs).drop ((m0 :: msgs).length - N))) := by
  rw [List.map_cons]
  rw [runTrace_cons_some s m0 _ _ 0 _ (store_event_init s N m0 hN)]
  have hrun := runTrace_canon s N msgs hN 0 [m0] (by simp; omega)
  rw [hrun]
  have hl : ([m0] ++ msgs) = m0 :: msgs := by simp
  rw [hl]
  have hz : 0 + ((m0 :: msgs).length - N) = (m0 :: msgs).length - N := by omega
  rw [hz]

/-- C1: for a single-stream trace of at most `N` stores, replaying after any
returned event id invokes the callback exactly once per stored entry strictly
after that id, in the original append order, and returns the stream's id. -/
theorem c1_replay_after_stored_id_suffix (s N k : Nat) (msgs : List Nat)
    (st : InMemoryEventStore) (hN : 1 ≤ N) (hcap : msgs.length ≤ N)
    (hk : k < msgs.length)
    (hrun : runTrace (msgs.map (fun m => (s, m))) (initStore N) = some st) :
    replay_events_after k st =
      (some s, ((entriesFrom s 0 msgs).drop (k + 1)).map toEM) := by
  cases msgs with
  | nil => simp at hk
  | cons m0 rest =>
    rw [runTrace_init_single s N m0 rest hN] at hrun
    have hz : (m0 :: rest).length - N = 0 := by
      simp only [List.length_cons]
      simp only [List.length_cons] at hcap
      omega
    rw [hz, List.drop_zero] at hrun
    have hst : st = canonState s N 0 (m0 :: rest) := (Option.some.inj hrun).symm
    subst hst
    rw [replay_events_after]
    have hidx := dlookup_indexOfLog_at s 0 k (m0 :: rest) hk
    simp only [Nat.zero_add] at hidx
    simp only [canonState]
    rw [hidx]
    simp only []
    have hlook : dlookup s [(s, entriesFrom s 0 (m0 :: rest))] =
        some (entriesFrom s 0 (m0 :: rest)) := by
      rw [dlookup, if_pos rfl]
    rw [hlook, Option.getD_some]
    have hrl := replayLoop_entriesFrom s (m0 :: rest) 0 k hk
    simp only [Nat.zero_add] at hrl
    rw [hrl, entriesFrom_drop]
    simp only [Nat.zero_add]

theorem c1_witness :
    replay_events_after 0 (canonState 5 2 0 [10, 11]) =
      (some 5, ((entriesFrom 5 0 [10, 11]).drop 1).map toEM) :=
  c1_replay_after_stored_id_suffix 5 2 0 [10, 11] (canonState 5 2 0 [10, 11])
    (by decide) (by decide) (by decide) (by decide)

/-- Anatomy of a successful `store_event` call on an arbitrary state. -/
theorem store_event_some_shape (sid m : Nat) (st st' : InMemoryEventStore) (i : Nat)
    (h : store_event sid m st = some (st', i)) :
    i = st.nextId ∧ st'.max_events_per_stream = st.max_events_per_stream ∧
    st'.nextId = st.nextId + 1 ∧ ∃ S0 log,
      ((dlookup sid st.streams = none ∧ S0 = dinsert sid [] st.streams ∧ log = []) ∨
       (dlookup sid st.streams = some log ∧ S0 = st.streams)) ∧
      st'.streams = dinsert sid
        (dequeAppend st.max_events_per_stream log
          { event_id := st.nextId, stream_id := sid, message := m }) S0 ∧
      ((log.length = st.max_events_per_stream ∧ ∃ oldest tail, log = oldest :: tail ∧
         st'.event_index = dinsert st.nextId
           { event_id := st.nextId, stream_id := sid, message := m }
           (derase oldest.event_id st.event_index)) ∨
       (¬log.length = st.max_events_per_stream ∧
         st'.event_index = dinsert st.nextId
           { event_id := st.nextId, stream_id := sid, message := m } st.event_index)) := by
  rw [store_event] at h
  cases hseq : dlookup sid st.streams with
  | none =>
    rw [hseq] at h
    simp only [dlookup_dinsert_self, Option.getD_some] at h
    by_cases hc : (([] : List EventEntry)).length = st.max_events_per_stream
    · rw [if_pos hc] at h
      simp at h
    · rw [if_neg hc] at h
      have hps := Option.some.inj h
      rw [Prod.mk.injEq] at hps
      obtain ⟨hA, hi⟩ := hps
      subst hA
      subst hi
      exact ⟨rfl, rfl, rfl, dinsert sid [] st.streams, [],
        Or.inl ⟨rfl, rfl, rfl⟩, rfl, Or.inr ⟨hc, rfl⟩⟩
  | some L =>
    rw [hseq] at h
    simp only [] at h
    rw [hseq] at h
    simp only [Option.getD_some] at h
    by_cases hc : L.length = st.max_events_per_stream
    · cases L with
      | nil =>
        rw [if_pos hc] at h
        simp at h
      | cons o tl =>
        rw [if_pos hc] at h
        simp only [] at h
        have hps := Option.some.inj h
        rw [Prod.mk.injEq] at hps
        obtain ⟨hA, hi⟩ := hps
        subst hA
        subst hi
        exact ⟨rfl, rfl, rfl, st.streams, o :: tl, Or.inr ⟨rfl, rfl⟩, rfl,
          Or.inl ⟨hc, o, tl, rfl, rfl⟩⟩
    · rw [if_neg hc] at h
      have hps := Option.some.inj h
      rw [Prod.mk.injEq] at hps
      obtain ⟨hA, hi⟩ := hps
      subst hA
      subst hi
      exact ⟨rfl, rfl, rfl, st.streams, L, Or.inr ⟨rfl, rfl⟩, rfl, Or.inr ⟨hc, rfl⟩⟩

theorem dequeAppend_lt (n : Nat) (log : List EventEntry) (x : EventEntry)
    (h : log.length < n) : dequeAppend n log x = log ++ [x] := by
  rw [dequeAppend, if_pos h]

theorem dequeAppend_full (n : Nat) (o : EventEntry) (tl : List EventEntry) (x : EventEntry)
    (h : (o :: tl).length = n) : dequeAppend n (o :: tl) x = tl ++ [x] := by
  rw [dequeAppend, if_neg (by omega)]
  have h1 : (o :: tl).length + 1 - n = 1 := by omega
  rw [h1]
  simp

theorem derase_sublist {β : Type} (k : Nat) (l : List (Nat × β)) :
    List.Sublist (derase k l) l := by
  induction l with
  | nil => simp [derase]
  | cons q rest ih =>
    by_cases hq : q.1 = k
    · rw [derase, if_pos hq]
      exact ih.cons _
    · rw [derase, if_neg hq]
      exact ih.cons₂ _

theorem storeInv_init (N : Nat) : StoreInv (initStore N) := by
  constructor
  all_goals first
    | (intro p hp; simp [initStore] at hp)
    | (simp [initStore])

theorem storeInv_store (sid m : Nat) (st st' : InMemoryEventStore) (i : Nat)
    (hinv : StoreInv st) (h : store_event sid m st = some (st', i)) : StoreInv st' := by
  obtain ⟨hi, hmax, hnext, S0, log, hS0, hstreams, hidx⟩ :=
    store_event_some_shape sid m st st' i h
  have hS0mem : ∀ q ∈ S0, q = (sid, ([] : List EventEntry)) ∨ q ∈ st.streams := by
    rcases hS0 with ⟨hnone, hS0e, hloge⟩ | ⟨hsome, hS0e⟩
    · intro q hq
      rw [hS0e] at hq
      exact mem_dinsert _ _ _ _ hq
    · intro q hq
      rw [hS0e] at hq
      exact Or.inr hq
  have hlogin : log = [] ∨ (sid, log) ∈ st.streams := by
    rcases hS0 with ⟨hnone, hS0e, hloge⟩ | ⟨hsome, hS0e⟩
    · exact Or.inl hloge
    · exact Or.inr (dlookup_mem _ _ _ hsome)
  have hloglen : log.length ≤ st.max_events_per_stream := by
    rcases hlogin with h0 | h0
    · rw [h0]
      exact Nat.zero_le _
    · exact hinv.logLen _ h0
  have hlogmem : ∀ x ∈ log, EventEntry.stream_id x = sid ∧ EventEntry.event_id x < st.nextId := by
    intro x hx
    rcases hlogin with h0 | h0
    · rw [h0] at hx
      simp at hx
    · exact ⟨hinv.homog _ h0 x hx, hinv.logIdsLt _ h0 x hx⟩
  obtain ⟨kept, X, hstreams2, hkept_sub, hkept_len, hidx2, hXsub, hX_in_kept, hXsl,
      hkept_sl, hXlook⟩ :
      ∃ kept X,
        st'.streams = dinsert sid
          (kept ++ [({ event_id := st.nextId, stream_id := sid, message := m } : EventEntry)]) S0 ∧
        (∀ x ∈ kept, x ∈ log) ∧ kept.length + 1 ≤ st.max_events_per_stream ∧
        st'.event_index = dinsert st.nextId
          ({ event_id := st.nextId, stream_id := sid, message := m } : EventEntry) X ∧
        (∀ p ∈ X, p ∈ st.event_index) ∧
        (∀ p ∈ X, Prod.snd p ∈ log → Prod.snd p ∈ kept) ∧
        List.Sublist X st.event_index ∧
        List.Sublist kept log ∧
        (∀ e : EventEntry,
          (e ∈ kept ∨ ∃ r ∈ st.streams, ¬Prod.fst r = sid ∧ e ∈ Prod.snd r) →
          dlookup (EventEntry.event_id e) X =
            dlookup (EventEntry.event_id e) st.event_index) := by
    rcases hidx with ⟨hfull, o, tl, hlogeq, hidxe⟩ | ⟨hnotfull, hidxe⟩
    · have hsome : dlookup sid st.streams = some log := by
        rcases hS0 with ⟨hnone, _, hloge⟩ | ⟨hsome, _⟩
        · rw [hloge] at hlogeq
          simp at hlogeq
        · exact hsome
      have hmemlog : (sid, log) ∈ st.streams := dlookup_mem _ _ _ hsome
      have homem : o ∈ log := by
        rw [hlogeq]
        exact List.mem_cons_self _ _
      refine ⟨tl, derase o.event_id st.event_index, ?_, ?_, ?_, hidxe, ?_, ?_,
        derase_sublist _ _, ?_, ?_⟩
      · rw [hstreams, hlogeq, dequeAppend_full _ o tl _ (by rw [← hlogeq]; exact hfull)]
      · intro x hx
        rw [hlogeq]
        exact List.mem_cons_of_mem _ hx
      · have : log.length = tl.length + 1 := by rw [hlogeq]; rfl
        omega
      · intro p hp
        exact ((mem_derase _ _ _).mp hp).1
      · intro p hp hpl
        have hne : Prod.fst p ≠ o.event_id := ((mem_derase _ _ _).mp hp).2
        have hpid : EventEntry.event_id (Prod.snd p) = Prod.fst p :=
          hinv.idxEntryId p (((mem_derase _ _ _).mp hp).1)
        have hpo : Prod.snd p ≠ o := by
          intro hcon
          rw [hcon] at hpid
          exact hne hpid.symm
        rw [hlogeq] at hpl
        rcases List.mem_cons.mp hpl with hpl | hpl
        · exact absurd hpl hpo
        · exact hpl
      · rw [hlogeq]
        exact (List.Sublist.refl tl).cons o
      · intro e hcase
        apply dlookup_derase_ne
        rcases hcase with he | ⟨r, hr, hrne, he⟩
        · have hnd := hinv.logNodup _ hmemlog
          rw [hlogeq, List.map_cons, List.nodup_cons] at hnd
          intro hc
          apply hnd.1
          rw [← hc]
          exact List.mem_map.mpr ⟨e, he, rfl⟩
        · intro hc
          obtain ⟨hfst, _⟩ := hinv.crossDisjoint r hr _ hmemlog e he o homem hc
          exact hrne hfst
    · refine ⟨log, st.event_index, ?_, fun x hx => hx, by omega, hidxe,
        fun p hp => hp, fun p hp hpl => hpl, List.Sublist.refl _,
        List.Sublist.refl _, fun e hcase => rfl⟩
      rw [hstreams, dequeAppend_lt _ _ _ (by omega)]
  have hmem' : ∀ q ∈ st'.streams,
      q = (sid, kept ++ [({ event_id := st.nextId, stream_id := sid, message := m } : EventEntry)]) ∨
      q = (sid, ([] : List EventEntry)) ∨ q ∈ st.streams := by
    intro q hq
    rw [hstreams2] at hq
    rcases mem_dinsert _ _ _ _ hq with hq | hq
    · exact Or.inl hq
    · exact Or.inr (hS0mem q hq)
  have hchar : ∀ q ∈ st'.streams, ∀ x ∈ Prod.snd q,
      (x = ({ event_id := st.nextId, stream_id := sid, message := m } : EventEntry) ∧
        Prod.fst q = sid) ∨
      (∃ qo ∈ st.streams, Prod.fst q = Prod.fst qo ∧ x ∈ Prod.snd qo) := by
    intro q hq x hx
    rcases hmem' q hq with hq' | hq' | hq'
    · rw [hq'] at hx
      simp only at hx
      rcases List.mem_append.mp hx with hx | hx
      · have hxl : x ∈ log := hkept_sub x hx
        rcases hlogin with h0 | h0
        · rw [h0] at hxl
          simp at hxl
        · exact Or.inr ⟨(sid, log), h0, by rw [hq'], hxl⟩
      · rw [List.mem_singleton] at hx
        exact Or.inl ⟨hx, by rw [hq']⟩
    · rw [hq'] at hx
      simp at hx
    · exact Or.inr ⟨q, hq', rfl, hx⟩
  constructor
  · -- logLen
    intro q hq
    rw [hmax]
    rcases hmem' q hq with hq' | hq' | hq'
    · rw [hq']
      simp only [List.length_append, List.length_cons, List.length_nil]
      omega
    · rw [hq']
      simp
    · exact hinv.logLen q hq'
  · -- homog
    intro q hq e he
    rcases hchar q hq e he with ⟨he1, he2⟩ | ⟨qo, hqo, hfst, hmem⟩
    · rw [he1, he2]
    · rw [hfst]
      exact hinv.homog qo hqo e hmem
  · -- logIdsLt
    intro q hq e he
    rw [hnext]
    rcases hchar q hq e he with ⟨he1, _⟩ | ⟨qo, hqo, _, hmem⟩
    · rw [he1]
      exact Nat.lt_succ_self _
    · exact Nat.lt_succ_of_lt (hinv.logIdsLt qo hqo e hmem)
  · -- idxKeyLt
    intro p hp
    rw [hnext]
    rw [hidx2] at hp
    rcases mem_dinsert _ _ _ _ hp with hp | hp
    · rw [hp]
      exact Nat.lt_succ_self _
    · exact Nat.lt_succ_of_lt (hinv.idxKeyLt p (hXsub p hp))
  · -- idxEntryId
    intro p hp
    rw [hidx2] at hp
    rcases mem_dinsert _ _ _ _ hp with hp | hp
    · rw [hp]
    · exact hinv.idxEntryId p (hXsub p hp)
  · -- idxInLog
    intro p hp
    rw [hidx2] at hp
    rcases mem_dinsert _ _ _ _ hp with hp | hp
    · refine ⟨kept ++ [({ event_id := st.nextId, stream_id := sid, message := m } : EventEntry)],
        ?_, ?_⟩
      · rw [hp]
        simp only
        rw [hstreams2]
        exact dlookup_dinsert_self _ _ _
      · rw [hp]
        simp only
        exact List.mem_append.mpr (Or.inr (List.mem_singleton.mpr rfl))
    · obtain ⟨Lp, hLp, hpin⟩ := hinv.idxInLog p (hXsub p hp)
      by_cases ht : EventEntry.stream_id (Prod.snd p) = sid
      · rcases hS0 with ⟨hnone, hS0e, hloge⟩ | ⟨hsome, hS0e⟩
        · rw [ht] at hLp
          rw [hnone] at hLp
          exact absurd hLp (by simp)
        · rw [ht] at hLp
          rw [hsome] at hLp
          have hLpl : Lp = log := (Option.some.inj hLp).symm
          subst hLpl
          refine ⟨kept ++ [({ event_id := st.nextId, stream_id := sid, message := m } : EventEntry)],
            ?_, ?_⟩
          · rw [ht, hstreams2]
            exact dlookup_dinsert_self _ _ _
          · exact List.mem_append.mpr (Or.inl (hX_in_kept p hp hpin))
      · refine ⟨Lp, ?_, hpin⟩
        rw [hstreams2, dlookup_dinsert_ne _ _ _ _ ht]
        rcases hS0 with ⟨hnone, hS0e, hloge⟩ | ⟨hsome, hS0e⟩
        · rw [hS0e, dlookup_dinsert_ne _ _ _ _ ht]
          exact hLp
        · rw [hS0e]
          exact hLp
  · -- crossDisjoint
    intro q hq r hr e he f hf heq
    rcases hchar q hq e he with ⟨he1, he2⟩ | ⟨qo, hqo, hfst, hmemq⟩
    · rcases hchar r hr f hf with ⟨hf1, hf2⟩ | ⟨ro, hro, hfst', hmemr⟩
      · rw [he2, hf2, he1, hf1]
        exact ⟨rfl, rfl⟩
      · exfalso
        have hfid : EventEntry.event_id f < st.nextId := hinv.logIdsLt ro hro f hmemr
        rw [he1] at heq
        simp only at heq
        omega
    · rcases hchar r hr f hf with ⟨hf1, hf2⟩ | ⟨ro, hro, hfst', hmemr⟩
      · exfalso
        have heid : EventEntry.event_id e < st.nextId := hinv.logIdsLt qo hqo e hmemq
        rw [hf1] at heq
        simp only at heq
        omega
      · obtain ⟨h1, h2⟩ := hinv.crossDisjoint qo hqo ro hro e hmemq f hmemr heq
        rw [hfst, hfst']
        exact ⟨h1, h2⟩
  · -- idxKeysNodup
    rw [hidx2]
    rw [dinsert_fresh _ _ _ (fun p hp => by
      have := hinv.idxKeyLt p (hXsub p hp)
      omega)]
    rw [List.map_append, List.nodup_append]
    refine ⟨hinv.idxKeysNodup.sublist (hXsl.map _), by simp, ?_⟩
    intro a ha hb
    rcases List.mem_map.mp ha with ⟨p, hp, hpa⟩
    have hlt := hinv.idxKeyLt p (hXsub p hp)
    simp only [List.map_cons, List.map_nil, List.mem_singleton] at hb
    rw [← hpa] at hb
    omega
  · -- streamsKeysNodup
    rw [hstreams2]
    apply keys_nodup_dinsert
    rcases hS0 with ⟨hnone, hS0e, _⟩ | ⟨hsome, hS0e⟩
    · rw [hS0e]
      exact keys_nodup_dinsert _ _ _ hinv.streamsKeysNodup
    · rw [hS0e]
      exact hinv.streamsKeysNodup
  · -- logNodup
    intro q hq
    rcases hmem' q hq with hq' | hq' | hq'
    · rw [hq']
      simp only
      rw [List.map_append, List.nodup_append]
      refine ⟨?_, by simp, ?_⟩
      · rcases hlogin with h0 | h0
        · have hke : kept = [] := List.sublist_nil.mp (h0 ▸ hkept_sl)
          rw [hke]
          simp
        · exact (hinv.logNodup _ h0).sublist (hkept_sl.map _)
      · intro a ha hb
        rcases List.mem_map.mp ha with ⟨e, he, hea⟩
        have hlt := (hlogmem e (hkept_sub e he)).2
        simp only [List.map_cons, List.map_nil, List.mem_singleton] at hb
        rw [← hea] at hb
        omega
    · rw [hq']
      simp
    · exact hinv.logNodup q hq'
  · -- logInIdx
    intro q hq e he
    rw [hidx2]
    have hS0nd : (S0.map Prod.fst).Nodup := by
      rcases hS0 with ⟨hnone, hS0e, _⟩ | ⟨hsome, hS0e⟩
      · rw [hS0e]
        exact keys_nodup_dinsert _ _ _ hinv.streamsKeysNodup
      · rw [hS0e]
        exact hinv.streamsKeysNodup
    rcases mem_dinsert_of_keys_nodup _ _ _ q hS0nd (hstreams2 ▸ hq) with hq' | ⟨hqS0, hqne⟩
    · rw [hq'] at he
      simp only at he
      rcases List.mem_append.mp he with he | he
      · have heid : EventEntry.event_id e < st.nextId := (hlogmem e (hkept_sub e he)).2
        rw [dlookup_dinsert_ne _ _ _ _ (by omega)]
        rw [hXlook e (Or.inl he)]
        have hmemlog : (sid, log) ∈ st.streams := by
          rcases hlogin with h0 | h0
          · exfalso
            have hke : kept = [] := List.sublist_nil.mp (h0 ▸ hkept_sl)
            rw [hke] at he
            simp at he
          · exact h0
        exact hinv.logInIdx _ hmemlog e (hkept_sub e he)
      · rw [List.mem_singleton] at he
        rw [he]
        exact dlookup_dinsert_self _ _ _
    · have hqmem : q ∈ st.streams := by
        rcases hS0mem q hqS0 with h0 | h0
        · exfalso
          apply hqne
          rw [h0]
        · exact h0
      have heid : EventEntry.event_id e < st.nextId := hinv.logIdsLt q hqmem e he
      rw [dlookup_dinsert_ne _ _ _ _ (by omega)]
      rw [hXlook e (Or.inr ⟨q, hqmem, hqne, he⟩)]
      exact hinv.logInIdx q hqmem e he

theorem storeInv_runTrace (calls : List (Nat × Nat)) :
    ∀ st st' : InMemoryEventStore, StoreInv st → runTrace calls st = some st' →
      StoreInv st' := by
  induction calls with
  | nil =>
    intro st st' hinv h
    rw [runTrace] at h
    rw [← Option.some.inj h]
    exact hinv
  | cons c rest ih =>
    intro st st' hinv h
    obtain ⟨sid, m⟩ := c
    rw [runTrace] at h
    cases hs : store_event sid m st with
    | none =>
      rw [hs] at h
      simp at h
    | some p =>
      obtain ⟨st1, i⟩ := p
      rw [hs] at h
      simp only [] at h
      exact ih st1 st' (storeInv_store sid m st st1 i hinv hs) h

theorem dlookup_absent_after_store (sid m io : Nat) (st st1 : InMemoryEventStore)
    (i : Nat) (h : store_event sid m st = some (st1, i)) (hio : io < st.nextId)
    (habs : dlookup io st.event_index = none) : dlookup io st1.event_index = none := by
  obtain ⟨hi, hmax, hnext, S0, log, hS0, hstreams, hidx⟩ :=
    store_event_some_shape sid m st st1 i h
  have hne : ¬io = st.nextId := by omega
  rcases hidx with ⟨hfull, o, tl, hlogeq, hidxe⟩ | ⟨hnotfull, hidxe⟩
  · rw [hidxe, dlookup_dinsert_ne _ _ _ _ hne]
    apply dlookup_eq_none
    intro p hp
    exact dlookup_none_forall io st.event_index habs p ((mem_derase _ _ _).mp hp).1
  · rw [hidxe, dlookup_dinsert_ne _ _ _ _ hne]
    exact habs

/-- An id once absent from the index is never indexed again: later calls only
insert their own strictly larger fresh id. -/
theorem absent_stays_absent (calls : List (Nat × Nat)) :
    ∀ st st' io, runTrace calls st = some st' → io < st.nextId →
      dlookup io st.event_index = none → dlookup io st'.event_index = none := by
  induction calls with
  | nil =>
    intro st st' io h hio habs
    rw [runTrace] at h
    rw [← Option.some.inj h]
    exact habs
  | cons c rest ih =>
    intro st st' io h hio habs
    obtain ⟨sid, m⟩ := c
    rw [runTrace] at h
    cases hs : store_event sid m st with
    | none =>
      rw [hs] at h
      simp at h
    | some p =>
      obtain ⟨st1, i⟩ := p
      rw [hs] at h
      simp only [] at h
      obtain ⟨_, _, hnext, _⟩ := store_event_some_shape sid m st st1 i hs
      exact ih st1 st' io h (by omega)
        (dlookup_absent_after_store sid m io st st1 i hs hio habs)

theorem runTraceEv_runTrace (calls : List (Nat × Nat)) :
    ∀ st st' evs, runTraceEv calls st = some (st', evs) →
      runTrace calls st = some st' := by
  induction calls with
  | nil =>
    intro st st' evs h
    rw [runTraceEv] at h
    have hps := Option.some.inj h
    rw [Prod.mk.injEq] at hps
    rw [runTrace, hps.1]
  | cons c rest ih =>
    intro st st' evs h
    obtain ⟨sid, m⟩ := c
    rw [runTraceEv] at h
    cases hs : store_event sid m st with
    | none =>
      rw [hs] at h
      simp at h
    | some p =>
      obtain ⟨st1, i⟩ := p
      rw [hs] at h
      simp only [] at h
      cases hr : runTraceEv rest st1 with
      | none =>
        rw [hr] at h
        simp at h
      | some q =>
        obtain ⟨st2, evs1⟩ := q
        rw [hr] at h
        simp only [] at h
        have hps := Option.some.inj h
        rw [Prod.mk.injEq] at hps
        rw [runTrace, hs]
        rw [← hps.1]
        exact ih st1 st2 evs1 hr

/-- The dropped-id observer is sound over any interleaved trace: every id a
step ever dropped from the index is still absent at the end, because later
calls insert only their own fresh id. -/
theorem runTraceEv_evicted_absent (calls : List (Nat × Nat)) :
    ∀ st0 st evs, StoreInv st0 → runTraceEv calls st0 = some (st, evs) →
      ∀ io ∈ evs, dlookup io st.event_index = none := by
  induction calls with
  | nil =>
    intro st0 st evs hinv h io hio
    rw [runTraceEv] at h
    have hps := Option.some.inj h
    rw [Prod.mk.injEq] at hps
    rw [← hps.2] at hio
    simp at hio
  | cons c rest ih =>
    intro st0 st evs hinv h io hio
    obtain ⟨sid, m⟩ := c
    rw [runTraceEv] at h
    cases hs : store_event sid m st0 with
    | none =>
      rw [hs] at h
      simp at h
    | some p =>
      obtain ⟨st1, i⟩ := p
      rw [hs] at h
      simp only [] at h
      cases hr : runTraceEv rest st1 with
      | none =>
        rw [hr] at h
        simp at h
      | some q =>
        obtain ⟨st2, evs1⟩ := q
        rw [hr] at h
        simp only [] at h
        have hps := Option.some.inj h
        rw [Prod.mk.injEq] at hps
        obtain ⟨hst, hevs⟩ := hps
        subst hst
        rw [← hevs] at hio
        rcases List.mem_append.mp hio with hio | hio
        · rw [evictedAt] at hio
          have hio1 := List.mem_of_mem_filter hio
          have hio2 := List.of_mem_filter hio
          simp only [decide_eq_true_eq] at hio2
          obtain ⟨v, hv⟩ := exists_dlookup_of_key_mem io st0.event_index hio1
          have hlt : io < st0.nextId := hinv.idxKeyLt _ (dlookup_mem _ _ _ hv)
          obtain ⟨_, _, hnext, _⟩ := store_event_some_shape sid m st0 st1 i hs
          exact absent_stays_absent rest st1 st2 io
            (runTraceEv_runTrace rest st1 st2 evs1 hr) (by omega) hio2
        · exact ih st1 st2 evs1 (storeInv_store sid m st0 st1 i hinv hs) hr io hio

/-- On invariant states the dropped-id observer is exactly the source's
eviction: when the eviction branch fires the dropped ids are precisely the
oldest entry's id, and otherwise nothing is dropped. -/
theorem evictedAt_store_event (sid m : Nat) (st st1 : InMemoryEventStore) (i : Nat)
    (hinv : StoreInv st) (h : store_event sid m st = some (st1, i)) :
    (logLenOf st sid = st.max_events_per_stream ∧
      (∃ oldest tail, (dlookup sid st.streams).getD [] = oldest :: tail ∧
        evictedAt st st1 = [EventEntry.event_id oldest])) ∨
    (¬logLenOf st sid = st.max_events_per_stream ∧ evictedAt st st1 = []) := by
  obtain ⟨hi, hmax, hnext, S0, log, hS0, hstreams, hidx⟩ :=
    store_event_some_shape sid m st st1 i h
  have hloggetD : (dlookup sid st.streams).getD [] = log := by
    rcases hS0 with ⟨hnone, _, hloge⟩ | ⟨hsome, _⟩
    · rw [hnone, hloge]
      rfl
    · rw [hsome]
      rfl
  rcases hidx with ⟨hfull, o, tl, hlogeq, hidxe⟩ | ⟨hnotfull, hidxe⟩
  · left
    have hsome : dlookup sid st.streams = some log := by
      rcases hS0 with ⟨hnone, _, hloge⟩ | ⟨hsome, _⟩
      · rw [hloge] at hlogeq
        simp at hlogeq
      · exact hsome
    have hmemlog : (sid, log) ∈ st.streams := dlookup_mem _ _ _ hsome
    have homem : o ∈ log := by
      rw [hlogeq]
      exact List.mem_cons_self _ _
    have hoidx : dlookup (EventEntry.event_id o) st.event_index = some o :=
      hinv.logInIdx _ hmemlog o homem
    have hokey : EventEntry.event_id o ∈ st.event_index.map Prod.fst :=
      List.mem_map.mpr ⟨(EventEntry.event_id o, o), dlookup_mem _ _ _ hoidx, rfl⟩
    have holt : EventEntry.event_id o < st.nextId :=
      hinv.idxKeyLt _ (dlookup_mem _ _ _ hoidx)
    refine ⟨by rw [logLenOf, hloggetD]; exact hfull, o, tl,
      by rw [hloggetD]; exact hlogeq, ?_⟩
    rw [evictedAt]
    apply filter_eq_singleton_of_nodup _ _ hinv.idxKeysNodup hokey
    intro b hb
    rw [hidxe]
    constructor
    · intro hPb
      simp only [decide_eq_true_eq] at hPb
      by_contra hbo
      obtain ⟨v, hv⟩ := exists_dlookup_of_key_mem b st.event_index hb
      have hblt : b < st.nextId := hinv.idxKeyLt _ (dlookup_mem _ _ _ hv)
      rw [dlookup_dinsert_ne _ _ _ _ (by omega)] at hPb
      rw [dlookup_derase_ne _ _ _ hbo] at hPb
      rw [hv] at hPb
      simp at hPb
    · intro hbo
      simp only [decide_eq_true_eq]
      rw [hbo]
      rw [dlookup_dinsert_ne _ _ _ _ (by omega)]
      exact dlookup_derase_self _ _
  · right
    refine ⟨by rw [logLenOf, hloggetD]; exact hnotfull, ?_⟩
    rw [evictedAt, List.filter_eq_nil_iff]
    intro b hb
    simp only [decide_eq_true_eq]
    obtain ⟨v, hv⟩ := exists_dlookup_of_key_mem b st.event_index hb
    have hblt : b < st.nextId := hinv.idxKeyLt _ (dlookup_mem _ _ _ hv)
    rw [hidxe, dlookup_dinsert_ne _ _ _ _ (by omega), hv]
    simp

theorem runTraceIds_spec (calls : List (Nat × Nat)) :
    ∀ st st' ids, runTraceIds calls st = some (st', ids) →
      runTrace calls st = some st' ∧
      st'.nextId = st.nextId + calls.length ∧
      (∀ j, j ∈ ids ↔ st.nextId ≤ j ∧ j < st.nextId + calls.length) ∧
      ids.Nodup := by
  induction calls with
  | nil =>
    intro st st' ids h
    rw [runTraceIds] at h
    have hps := Option.some.inj h
    rw [Prod.mk.injEq] at hps
    obtain ⟨h1, h2⟩ := hps
    subst h1
    subst h2
    refine ⟨rfl, by simp, ?_, List.nodup_nil⟩
    intro j
    constructor
    · intro hj
      simp at hj
    · intro hj
      exfalso
      simp at hj
      omega
  | cons c rest ih =>
    intro st st' ids h
    obtain ⟨sid, m⟩ := c
    rw [runTraceIds] at h
    cases hs : store_event sid m st with
    | none =>
      rw [hs] at h
      simp at h
    | some p =>
      obtain ⟨st1, i⟩ := p
      rw [hs] at h
      simp only [] at h
      cases hr : runTraceIds rest st1 with
      | none =>
        rw [hr] at h
        simp at h
      | some q =>
        obtain ⟨st2, ids1⟩ := q
        rw [hr] at h
        simp only [] at h
        have hps := Option.some.inj h
        rw [Prod.mk.injEq] at hps
        obtain ⟨h1, h2⟩ := hps
        subst h1
        subst h2
        obtain ⟨hrt, hnext1, hmem1, hnodup1⟩ := ih st1 st2 ids1 hr
        obtain ⟨hi, hmax, hnext, _⟩ := store_event_some_shape sid m st st1 i hs
        subst hi
        refine ⟨?_, ?_, ?_, ?_⟩
        · rw [runTrace, hs]
          exact hrt
        · rw [hnext1, hnext]
          simp only [List.length_cons]
          omega
        · intro j
          rw [List.mem_cons, hmem1 j, hnext]
          simp only [List.length_cons]
          omega
        · rw [List.nodup_cons]
          constructor
          · intro hcon
            have hb := (hmem1 _).mp hcon
            rw [hnext] at hb
            omega
          · exact hnodup1

/-- C3: replaying after an id that no `store_event` call ever returned gives
the not-found result `(none, [])`: no callback is invoked and no stream id is
returned (and the model is a total function, mirroring that the source raises
no exception on this path). -/
theorem c3_unknown_id_not_found (N : Nat) (calls : List (Nat × Nat))
    (st : InMemoryEventStore) (ids : List Nat) (j : Nat)
    (hrun : runTraceIds calls (initStore N) = some (st, ids))
    (hj : ¬j ∈ ids) :
    replay_events_after j st = (none, []) := by
  obtain ⟨hrt, hnext, hmem, hnodup⟩ := runTraceIds_spec calls (initStore N) st ids hrun
  have hge : st.nextId ≤ j := by
    by_contra hlt
    push_neg at hlt
    apply hj
    apply (hmem j).mpr
    rw [hnext] at hlt
    constructor
    · simp [initStore]
    · simp only [initStore] at hlt ⊢
      omega
  have hinv : StoreInv st := storeInv_runTrace calls (initStore N) st (storeInv_init N) hrt
  have hnone : dlookup j st.event_index = none := by
    apply dlookup_eq_none
    intro p hp
    have := hinv.idxKeyLt p hp
    omega
  rw [replay_events_after, hnone]

theorem c3_witness : replay_events_after 7 (canonState 1 1 0 [10]) = (none, []) :=
  c3_unknown_id_not_found 1 [(1, 10)] (canonState 1 1 0 [10]) [0] 7
    (by decide) (by decide)

/-- C5: the event ids returned across any sequence of `store_event` calls, on
any streams, are pairwise distinct — an id is never returned twice, not even
after its entry has been evicted.  (uuid4 is modelled by the fresh-id
counter.) -/
theorem c5_ids_globally_unique (N : Nat) (calls : List (Nat × Nat))
    (st : InMemoryEventStore) (ids : List Nat)
    (hrun : runTraceIds calls (initStore N) = some (st, ids)) :
    ids.Nodup :=
  (runTraceIds_spec calls (initStore N) st ids hrun).2.2.2

theorem c5_witness : ([0, 1, 2] : List Nat).Nodup :=
  c5_ids_globally_unique 1 [(1, 10), (1, 11), (1, 12)] (canonState 1 1 2 [12])
    [0, 1, 2] (by decide)

/-- C4: for any trace of stores, whenever replay on some id reports stream
`A`, every callback invocation corresponds to an entry of stream `A`'s log
whose `stream_id` is `A`; for any other stream `B`, no entry of `B`'s log
carries the id of a delivered message. -/
theorem c4_replay_stays_in_stream (N : Nat) (calls : List (Nat × Nat))
    (st : InMemoryEventStore) (j A : Nat) (d : List EventMessage)
    (hrun : runTrace calls (initStore N) = some st)
    (hrep : replay_events_after j st = (some A, d)) :
    ∀ em ∈ d,
      (∃ L e, dlookup A st.streams = some L ∧ e ∈ L ∧
        EventEntry.stream_id e = A ∧ em = toEM e) ∧
      (∀ B, ¬B = A → ∀ L' e', dlookup B st.streams = some L' → e' ∈ L' →
        ¬EventMessage.event_id em = EventEntry.event_id e') := by
  have hinv : StoreInv st := storeInv_runTrace calls (initStore N) st (storeInv_init N) hrun
  intro em hem
  rw [replay_events_after] at hrep
  cases hl : dlookup j st.event_index with
  | none =>
    rw [hl] at hrep
    simp at hrep
  | some last =>
    rw [hl] at hrep
    simp only [] at hrep
    rw [Prod.mk.injEq] at hrep
    obtain ⟨hA, hd⟩ := hrep
    have hA' : EventEntry.stream_id last = A := Option.some.inj hA
    cases hsl : dlookup (EventEntry.stream_id last) st.streams with
    | none =>
      rw [hsl] at hd
      simp only [Option.getD_none] at hd
      rw [replayLoop] at hd
      rw [← hd] at hem
      simp at hem
    | some L =>
      rw [hsl] at hd
      simp only [Option.getD_some] at hd
      rw [← hd] at hem
      obtain ⟨e, heL, hemE⟩ := mem_replayLoop j L false em hem
      have hqmem : (EventEntry.stream_id last, L) ∈ st.streams := dlookup_mem _ _ _ hsl
      have hhomog : EventEntry.stream_id e = EventEntry.stream_id last :=
        hinv.homog _ hqmem e heL
      constructor
      · refine ⟨L, e, ?_, heL, ?_, hemE⟩
        · rw [← hA']
          exact hsl
        · rw [hhomog, hA']
      · intro B hB L' e' hB' he' hcon
        have hqmem' : (B, L') ∈ st.streams := dlookup_mem _ _ _ hB'
        have hee : EventEntry.event_id e = EventEntry.event_id e' := by
          rw [hemE] at hcon
          exact hcon
        obtain ⟨hfst, _⟩ := hinv.crossDisjoint _ hqmem _ hqmem' e heL e' he' hee
        apply hB
        rw [← hA']
        exact hfst.symm

theorem c4_witness :
    (∃ L e, dlookup 1 exTwoStreams.streams = some L ∧ e ∈ L ∧
      EventEntry.stream_id e = 1 ∧
      ({ message := 11, event_id := 2 } : EventMessage) = toEM e) ∧
    (∀ B, ¬B = 1 → ∀ L' e', dlookup B exTwoStreams.streams = some L' → e' ∈ L' →
      ¬EventMessage.event_id ({ message := 11, event_id := 2 } : EventMessage) =
        EventEntry.event_id e') :=
  c4_replay_stays_in_stream 2 [(1, 10), (2, 20), (1, 11)] exTwoStreams 0 1
    [{ message := 11, event_id := 2 }] (by decide) (by decide)
    { message := 11, event_id := 2 } (by decide)

/-- C6: a successful `store_event` leaves the stream's log length unchanged
when the log was already at capacity, and grows it by exactly one otherwise;
either way the log never exceeds the capacity. -/
theorem c6_log_length_step (sid m : Nat) (st st' : InMemoryEventStore) (i : Nat)
    (hcap : logLenOf st sid ≤ st.max_events_per_stream)
    (h : store_event sid m st = some (st', i)) :
    logLenOf st' sid =
      (if logLenOf st sid = st.max_events_per_stream then logLenOf st sid
       else logLenOf st sid + 1) ∧
    logLenOf st' sid ≤ st.max_events_per_stream := by
  obtain ⟨hi, hmax, hnext, S0, log, hS0, hstreams, hidx⟩ :=
    store_event_some_shape sid m st st' i h
  have hlen : logLenOf st sid = log.length := by
    rcases hS0 with ⟨hnone, _, hloge⟩ | ⟨hsome, _⟩
    · rw [logLenOf, hnone, hloge]
      rfl
    · rw [logLenOf, hsome, Option.getD_some]
  have hlen' : logLenOf st' sid = (dequeAppend st.max_events_per_stream log
      { event_id := st.nextId, stream_id := sid, message := m }).length := by
    rw [logLenOf, hstreams, dlookup_dinsert_self, Option.getD_some]
  rw [hlen', hlen]
  rw [hlen] at hcap
  rcases hidx with ⟨hfull, o, tl, hlogeq, _⟩ | ⟨hnotfull, _⟩
  · rw [if_pos hfull]
    rw [hlogeq, dequeAppend_full _ o tl _ (by rw [← hlogeq]; exact hfull)]
    rw [hlogeq] at hfull
    simp only [List.length_append, List.length_cons, List.length_nil] at hfull ⊢
    exact ⟨trivial, by omega⟩
  · rw [if_neg hnotfull]
    rw [dequeAppend_lt _ _ _ (by omega)]
    simp only [List.length_append, List.length_cons, List.length_nil]
    exact ⟨trivial, by omega⟩

theorem c6_witness :
    logLenOf (canonState 1 2 0 [5]) 1 =
      (if logLenOf (initStore 2) 1 = 2 then logLenOf (initStore 2) 1
       else logLenOf (initStore 2) 1 + 1) ∧
    logLenOf (canonState 1 2 0 [5]) 1 ≤ 2 :=
  c6_log_length_step 1 5 (initStore 2) (canonState 1 2 0 [5]) 0 (by decide) (by decide)

/-- A failing `store_event` is possible only at capacity zero. -/
theorem store_event_eq_none (sid m : Nat) (st : InMemoryEventStore)
    (h : store_event sid m st = none) : st.max_events_per_stream = 0 := by
  rw [store_event] at h
  cases hseq : dlookup sid st.streams with
  | none =>
    rw [hseq] at h
    simp only [dlookup_dinsert_self, Option.getD_some] at h
    by_cases hc : (([] : List EventEntry)).length = st.max_events_per_stream
    · rw [List.length_nil] at hc
      omega
    · rw [if_neg hc] at h
      simp at h
  | some L =>
    rw [hseq] at h
    simp only [] at h
    rw [hseq] at h
    simp only [Option.getD_some] at h
    by_cases hc : L.length = st.max_events_per_stream
    · rw [if_pos hc] at h
      cases L with
      | nil =>
        rw [List.length_nil] at hc
        omega
      | cons o tl =>
        simp at h
    · rw [if_neg hc] at h
      simp at h

/-- C8: with capacity 0 the very first `store_event` on any stream fails
(the eviction branch indexes the head of an empty deque, raising in the
source); with any capacity at least 1, `store_event` always succeeds. -/
theorem c8_capacity_zero_store_fails :
    (∀ sid m, store_event sid m (initStore 0) = none) ∧
    (∀ st : InMemoryEventStore, 1 ≤ st.max_events_per_stream →
      ∀ sid m, (store_event sid m st).isSome = true) := by
  constructor
  · intro sid m
    rw [store_event]
    simp only [initStore, dlookup, dinsert, Option.getD_some, ite_true, List.length_nil]
  · intro st hm sid m
    cases hres : store_event sid m st with
    | none =>
      have := store_event_eq_none sid m st hres
      omega
    | some p => rfl

theorem c8_witness :
    store_event 1 5 (initStore 0) = none ∧
    (store_event 1 5 (canonState 1 1 0 [10])).isSome = true :=
  ⟨c8_capacity_zero_store_fails.1 1 5,
   c8_capacity_zero_store_fails.2 (canonState 1 1 0 [10]) (by decide) 1 5⟩

/-- C9: whenever `replay_events_after` reports not-found (`None`), it has
invoked the callback zero times; the source performs no writes anywhere in
`replay_events_after`, so the store state is unchanged (the model is a pure
function of the store). -/
theorem c9_not_found_means_no_callbacks (j : Nat) (st : InMemoryEventStore)
    (h : (replay_events_after j st).1 = none) :
    replay_events_after j st = (none, []) := by
  rw [replay_events_after] at h ⊢
  cases hl : dlookup j st.event_index with
  | none => rfl
  | some last =>
    rw [hl] at h
    simp at h

theorem c9_witness : replay_events_after 0 (initStore 1) = (none, []) :=
  c9_not_found_means_no_callbacks 0 (initStore 1) (by rfl)

theorem filter_derase_of_none {β : Type} (k : Nat) (P : Nat × β → Bool) :
    ∀ l : List (Nat × β), (∀ p ∈ l, p.1 = k → P p = false) →
      (derase k l).filter P = l.filter P := by
  intro l
  induction l with
  | nil => intro hp; rfl
  | cons q rest ih =>
    intro hp
    by_cases hq : q.1 = k
    · rw [derase, if_pos hq, List.filter_cons]
      rw [hp q (List.mem_cons_self _ _) hq]
      simp only [Bool.false_eq_true, if_false]
      exact ih (fun p hpm hpk => hp p (List.mem_cons_of_mem _ hpm) hpk)
    · rw [derase, if_neg hq, List.filter_cons, List.filter_cons,
        ih (fun p hpm hpk => hp p (List.mem_cons_of_mem _ hpm) hpk)]

/-- C10: a `store_event` on stream `sid` leaves every other stream `t`
untouched: `t`'s log is unchanged and the sublist of index entries whose
`stream_id` is `t` is unchanged. -/
theorem c10_store_frames_other_streams (sid m : Nat) (st st' : InMemoryEventStore)
    (i : Nat) (hinv : StoreInv st) (h : store_event sid m st = some (st', i)) :
    ∀ t, ¬t = sid →
      dlookup t st'.streams = dlookup t st.streams ∧
      st'.event_index.filter (fun p => EventEntry.stream_id (Prod.snd p) = t) =
        st.event_index.filter (fun p => EventEntry.stream_id (Prod.snd p) = t) := by
  obtain ⟨hi, hmax, hnext, S0, log, hS0, hstreams, hidx⟩ :=
    store_event_some_shape sid m st st' i h
  intro t ht
  constructor
  · rw [hstreams, dlookup_dinsert_ne _ _ _ _ ht]
    rcases hS0 with ⟨hnone, hS0e, _⟩ | ⟨hsome, hS0e⟩
    · rw [hS0e, dlookup_dinsert_ne _ _ _ _ ht]
    · rw [hS0e]
  · have hfilter_new : ∀ X : List (Nat × EventEntry), (∀ p ∈ X, p ∈ st.event_index) →
        (dinsert st.nextId ({ event_id := st.nextId, stream_id := sid, message := m } :
            EventEntry) X).filter (fun p => EventEntry.stream_id (Prod.snd p) = t) =
          X.filter (fun p => EventEntry.stream_id (Prod.snd p) = t) := by
      intro X hX
      rw [dinsert_fresh _ _ _ (fun p hp => by
        have := hinv.idxKeyLt p (hX p hp)
        omega)]
      rw [List.filter_append, List.filter_cons]
      have hne : (decide (EventEntry.stream_id
          ({ event_id := st.nextId, stream_id := sid, message := m } : EventEntry) = t)) =
          false := by
        simp only [decide_eq_false_iff_not]
        intro hcon
        exact ht (by rw [← hcon])
      simp only [hne, Bool.false_eq_true, if_false, List.filter_nil, List.append_nil]
    rcases hidx with ⟨hfull, o, tl, hlogeq, hidxe⟩ | ⟨hnotfull, hidxe⟩
    · rw [hidxe, hfilter_new _ (fun p hp => ((mem_derase _ _ _).mp hp).1)]
      apply filter_derase_of_none
      intro p hp hpk
      have hpid : EventEntry.event_id (Prod.snd p) = Prod.fst p := hinv.idxEntryId p hp
      obtain ⟨Lp, hLp, hpin⟩ := hinv.idxInLog p hp
      have hlogS : dlookup sid st.streams = some log := by
        rcases hS0 with ⟨hnone, _, hloge⟩ | ⟨hsome, _⟩
        · rw [hloge] at hlogeq
          simp at hlogeq
        · exact hsome
      have homem : o ∈ log := by
        rw [hlogeq]
        exact List.mem_cons_self _ _
      have hee : EventEntry.event_id (Prod.snd p) = EventEntry.event_id o := by
        have hoid : EventEntry.event_id o = o.event_id := rfl
        rw [hpid, hpk]
      obtain ⟨hfst, _⟩ := hinv.crossDisjoint _ (dlookup_mem _ _ _ hLp) _
        (dlookup_mem _ _ _ hlogS) (Prod.snd p) hpin o homem hee
      simp only [decide_eq_false_iff_not]
      intro hcon
      apply ht
      rw [← hcon]
      exact hfst
    · rw [hidxe, hfilter_new _ (fun p hp => hp)]

theorem c10_witness :
    dlookup 2 (canonState 1 1 0 [5]).streams = dlookup 2 (initStore 1).streams ∧
    (canonState 1 1 0 [5]).event_index.filter
        (fun p => EventEntry.stream_id (Prod.snd p) = 2) =
      (initStore 1).event_index.filter
        (fun p => EventEntry.stream_id (Prod.snd p) = 2) :=
  c10_store_frames_other_streams 1 5 (initStore 1) (canonState 1 1 0 [5]) 0
    (storeInv_init 1) (by decide) 2 (by decide)

theorem runTrace_max (calls : List (Nat × Nat)) :
    ∀ st st' : InMemoryEventStore, runTrace calls st = some st' →
      st'.max_events_per_stream = st.max_events_per_stream := by
  induction calls with
  | nil =>
    intro st st' h
    rw [runTrace] at h
    rw [← Option.some.inj h]
  | cons c rest ih =>
    intro st st' h
    obtain ⟨sid, m⟩ := c
    rw [runTrace] at h
    cases hs : store_event sid m st with
    | none =>
      rw [hs] at h
      simp at h
    | some p =>
      obtain ⟨st1, i⟩ := p
      rw [hs] at h
      simp only [] at h
      obtain ⟨_, hmax, _, _⟩ := store_event_some_shape sid m st st1 i hs
      rw [ih st1 st' h, hmax]

/-- Under the invariant, the index holds at most `max_events_per_stream`
entries for any one stream: its keys are distinct ids all present in that
stream's bounded log. -/
theorem index_filter_le (st : InMemoryEventStore) (hinv : StoreInv st) (t : Nat) :
    (st.event_index.filter (fun p => EventEntry.stream_id (Prod.snd p) = t)).length
      ≤ st.max_events_per_stream := by
  cases hL : dlookup t st.streams with
  | none =>
    have hnil : st.event_index.filter
        (fun p => EventEntry.stream_id (Prod.snd p) = t) = [] := by
      rw [List.filter_eq_nil_iff]
      intro p hp
      simp only [decide_eq_true_eq]
      intro hcon
      obtain ⟨Lp, hLp, _⟩ := hinv.idxInLog p hp
      rw [hcon, hL] at hLp
      simp at hLp
    rw [hnil]
    simp
  | some L =>
    have hmemL : (t, L) ∈ st.streams := dlookup_mem _ _ _ hL
    have hsub : (List.map Prod.fst (st.event_index.filter
        (fun p => EventEntry.stream_id (Prod.snd p) = t))) ⊆
        L.map EventEntry.event_id := by
      intro k hk
      rcases List.mem_map.mp hk with ⟨p, hp, hpk⟩
      have hpmem : p ∈ st.event_index := List.mem_of_mem_filter hp
      have hpt : EventEntry.stream_id (Prod.snd p) = t := by
        have := List.of_mem_filter hp
        simpa using this
      obtain ⟨Lp, hLp, hpin⟩ := hinv.idxInLog p hpmem
      rw [hpt, hL] at hLp
      have hLpL : Lp = L := (Option.some.inj hLp).symm
      subst hLpL
      apply List.mem_map.mpr
      exact ⟨Prod.snd p, hpin, by rw [hinv.idxEntryId p hpmem, hpk]⟩
    have hnodup : (List.map Prod.fst (st.event_index.filter
        (fun p => EventEntry.stream_id (Prod.snd p) = t))).Nodup :=
      hinv.idxKeysNodup.sublist ((List.filter_sublist _).map _)
    have hle := (hnodup.subperm hsub).length_le
    rw [List.length_map, List.length_map] at hle
    exact hle.trans (hinv.logLen _ hmemL)

/-- C2: once more than `N` entries have been stored on a stream, every
evicted (oldest) id is absent from the global index and replaying after it
returns the not-found result: stated concretely for single-stream traces
(where the evicted ids are the first `|msgs| - N` ones), and in general for
any interleaved trace via the dropped-id observer `runTraceEv` (which, on
invariant states, collects exactly the eviction branch's oldest id — see
`evictedAt_store_event`); and in every reachable state of any trace the
number of index entries belonging to any one stream is at most `N`. -/
theorem c2_eviction_removes_index_and_bound (s N : Nat) (msgs : List Nat)
    (st : InMemoryEventStore) (hN : 1 ≤ N) (hover : N < msgs.length)
    (hrun : runTrace (msgs.map (fun m => (s, m))) (initStore N) = some st) :
    (∀ i, i < msgs.length - N →
      dlookup i st.event_index = none ∧ replay_events_after i st = (none, [])) ∧
    (∀ calls (stG : InMemoryEventStore) evs io,
      runTraceEv calls (initStore N) = some (stG, evs) → io ∈ evs →
      dlookup io stG.event_index = none ∧
      replay_events_after io stG = (none, [])) ∧
    (∀ calls (st2 : InMemoryEventStore) t, runTrace calls (initStore N) = some st2 →
      (st2.event_index.filter
        (fun p => EventEntry.stream_id (Prod.snd p) = t)).length ≤ N) := by
  refine ⟨?_, ?_, ?_⟩
  · intro i hi
    cases msgs with
    | nil => simp at hover
    | cons m0 rest =>
      rw [runTrace_init_single s N m0 rest hN] at hrun
      have hst : st = canonState s N ((m0 :: rest).length - N)
          ((m0 :: rest).drop ((m0 :: rest).length - N)) := (Option.some.inj hrun).symm
      subst hst
      have hnone : dlookup i (canonState s N ((m0 :: rest).length - N)
          ((m0 :: rest).drop ((m0 :: rest).length - N))).event_index = none := by
        simp only [canonState]
        exact dlookup_indexOfLog_lt s ((m0 :: rest).length - N) i _ hi
      refine ⟨hnone, ?_⟩
      rw [replay_events_after, hnone]
  · intro calls stG evs io hrunG hio
    have hnone :=
      runTraceEv_evicted_absent calls (initStore N) stG evs (storeInv_init N) hrunG io hio
    refine ⟨hnone, ?_⟩
    rw [replay_events_after, hnone]
  · intro calls st2 t hrun2
    have hinv2 : StoreInv st2 :=
      storeInv_runTrace calls (initStore N) st2 (storeInv_init N) hrun2
    have hmax2 : st2.max_events_per_stream = N := by
      rw [runTrace_max calls (initStore N) st2 hrun2]
      rfl
    rw [← hmax2]
    exact index_filter_le st2 hinv2 t

theorem c2_witness :
    (∀ i, i < 1 →
      dlookup i (canonState 5 1 1 [11]).event_index = none ∧
      replay_events_after i (canonState 5 1 1 [11]) = (none, [])) ∧
    (∀ calls (stG : InMemoryEventStore) evs io,
      runTraceEv calls (initStore 1) = some (stG, evs) → io ∈ evs →
      dlookup io stG.event_index = none ∧
      replay_events_after io stG = (none, [])) ∧
    (∀ calls (st2 : InMemoryEventStore) t, runTrace calls (initStore 1) = some st2 →
      (st2.event_index.filter
        (fun p => EventEntry.stream_id (Prod.snd p) = t)).length ≤ 1) := by
  have h := c2_eviction_removes_index_and_bound 5 1 [10, 11] (canonState 5 1 1 [11])
    (by decide) (by decide) (by decide)
  exact h
